import Mathlib

/-!
Verification of the vintage time-series normalizer in `src/app.py`
(macro-dashboard).

The numeric cells of the pandas DataFrame are IEEE-754 doubles.  We embed
them as the type `PF` below: a NaN marker, signed infinities, and finite
values carried as exact rationals (the claims under verification concern
missing-value propagation and algebraic identities, not binary rounding, so
the rational carrier is the faithful idealization).  The arithmetic on `PF`
follows IEEE/numpy semantics: NaN absorbs, `x / 0` is a signed infinity for
`x ≠ 0` and NaN for `0 / 0` (rationals have a single zero, which models
numpy's `+0.0`; none of the pipeline's inputs produce `-0.0`).
-/

/-- An IEEE-style floating-point value: NaN, a signed infinity
(`inf true` is `+∞`), or a finite value carried exactly as a rational. -/
inductive PF where
  | nan : PF
  | inf : Bool → PF
  | fin : ℚ → PF
deriving DecidableEq

/-- `pd.isna` on a scalar: true exactly on NaN (infinities are not missing). -/
def PF.isna : PF → Bool
  | PF.nan => true
  | _ => false

/-- IEEE addition. -/
def pfAdd : PF → PF → PF
  | PF.nan, _ => PF.nan
  | _, PF.nan => PF.nan
  | PF.inf a, PF.inf b => if a = b then PF.inf a else PF.nan
  | PF.inf a, PF.fin _ => PF.inf a
  | PF.fin _, PF.inf b => PF.inf b
  | PF.fin a, PF.fin b => PF.fin (a + b)

/-- IEEE negation. -/
def pfNeg : PF → PF
  | PF.nan => PF.nan
  | PF.inf a => PF.inf (!a)
  | PF.fin a => PF.fin (-a)

/-- IEEE subtraction (`a - b = a + (-b)`; in particular `∞ - ∞ = NaN`). -/
def pfSub (a b : PF) : PF := pfAdd a (pfNeg b)

/-- IEEE multiplication (`∞ * 0 = NaN`, signs multiply). -/
def pfMul : PF → PF → PF
  | PF.nan, _ => PF.nan
  | _, PF.nan => PF.nan
  | PF.inf a, PF.inf b => PF.inf (a = b)
  | PF.inf a, PF.fin q => if q = 0 then PF.nan else PF.inf (a = decide (0 < q))
  | PF.fin q, PF.inf b => if q = 0 then PF.nan else PF.inf (b = decide (0 < q))
  | PF.fin a, PF.fin b => PF.fin (a * b)

/-- IEEE division: `0 / 0 = NaN`, `x / 0 = ±∞` for finite `x ≠ 0` (the
denominator `0` models numpy's `+0.0`, so the numerator's sign decides),
`finite / ∞ = 0`, `∞ / ∞ = NaN`. -/
def pfDiv : PF → PF → PF
  | PF.nan, _ => PF.nan
  | _, PF.nan => PF.nan
  | PF.inf _, PF.inf _ => PF.nan
  | PF.inf a, PF.fin q => if q = 0 then PF.inf a else PF.inf (a = decide (0 < q))
  | PF.fin _, PF.inf _ => PF.fin 0
  | PF.fin a, PF.fin b =>
      if b = 0 then (if a = 0 then PF.nan else PF.inf (decide (0 < a)))
      else PF.fin (a / b)

/-- Fourth power, as numpy's `** 4` (`(-∞)^4 = +∞`, NaN propagates). -/
def pfPow4 (x : PF) : PF := pfMul (pfMul x x) (pfMul x x)

/-- Sum of a list of IEEE values. -/
def pfSum (l : List PF) : PF := l.foldr pfAdd (PF.fin 0)

/-- Element of a series at position `t` (`NaN` past the end, matching a
missing cell). -/
def seriesGet (xs : List PF) (t : Nat) : PF := xs.getD t PF.nan

/-- `series.shift(n)` evaluated at position `t`: NaN for the first `n`
positions, else the element `n` places earlier. -/
def shiftN (n : Nat) (xs : List PF) (t : Nat) : PF :=
  if t < n then PF.nan else xs.getD (t - n) PF.nan

/-- `calc_qoq_saar` from src/app.py:
`((level_series / level_series.shift(1)) ** 4 - 1) * 100`, at position `t`. -/
def calc_qoq_saar (xs : List PF) (t : Nat) : PF :=
  pfMul (pfSub (pfPow4 (pfDiv (seriesGet xs t) (shiftN 1 xs t))) (PF.fin 1)) (PF.fin 100)

/-- Modelled from the spec: the dashboard variant deriving the `yoy` column
is one of the repository's near-duplicate files that is not under src/
(src/app.py derives only `value`, `qoq_saar` and `zscore_20y`).  Faithful to
the spec's formula `yoy = 100 * (level[t] / level[t-4] - 1)`, realized in
pandas style as `100 * (level / level.shift(4) - 1)`. -/
def calc_yoy (xs : List PF) (t : Nat) : PF :=
  pfMul (PF.fin 100) (pfSub (pfDiv (seriesGet xs t) (shiftN 4 xs t)) (PF.fin 1))

/-- The positional rolling window of width `W` ending at `t`: elements at
positions `t-W+1 … t` (clipped at the ends of the series), as used by
`series.rolling(W, min_periods=W)`. -/
def window (xs : List PF) (W t : Nat) : List PF :=
  (xs.take (t + 1)).drop (t + 1 - W)

/-- The non-missing values inside the rolling window (pandas aggregates
over these, requiring at least `min_periods` of them). -/
def notNAWindow (xs : List PF) (W t : Nat) : List PF :=
  (window xs W t).filter (fun v => !v.isna)

/-- `series.rolling(W, min_periods=W).mean()` at position `t`: NaN unless
the window holds at least `W` non-missing values (with window width `W`
this forces exactly `W`, i.e. no partial windows), else the mean of the
non-missing values (sum divided by their count). -/
def roll_mean (W : Nat) (xs : List PF) (t : Nat) : PF :=
  if W ≤ (notNAWindow xs W t).length then
    pfDiv (pfSum (notNAWindow xs W t)) (PF.fin ((notNAWindow xs W t).length : ℚ))
  else PF.nan

/-- The population variance underlying
`series.rolling(W, min_periods=W).std(ddof=0)` at position `t`: the mean
of the squared deviations from the window mean, i.e. with `ddof=0` pandas
divides by the count `W` itself (not `W - 1`); `roll_std` in the source is
the square root of this value, which is folded into `sqrtDiv` below. -/
def roll_var (W : Nat) (xs : List PF) (t : Nat) : PF :=
  if W ≤ (notNAWindow xs W t).length then
    pfDiv
      (pfSum ((notNAWindow xs W t).map (fun v =>
        pfMul (pfSub v (roll_mean W xs t)) (pfSub v (roll_mean W xs t)))))
      (PF.fin ((notNAWindow xs W t).length : ℚ))
  else PF.nan

/-- A z-score value `num / √rad`: NaN, a signed infinity, or the exact pair
`val num rad` standing for the real number `num / √rad` with `rad > 0`.
Only NaN-ness and the exact pair are ever inspected by the claims, so the
irrational square root never needs to be evaluated. -/
inductive SF where
  | nan : SF
  | inf : Bool → SF
  | val : ℚ → ℚ → SF
deriving DecidableEq

/-- `pd.isna` on a z-score value. -/
def SF.isna : SF → Bool
  | SF.nan => true
  | _ => false

/-- `a / sqrt(v)` with IEEE semantics: this is the division
`(x - roll_mean) / roll_std` of the source, where `roll_std` is the square
root of the population variance `v`.  `sqrt(NaN) = NaN`, `sqrt(-x) = NaN`,
`finite / sqrt(0) = ±∞` (NaN for `0 / 0`), `finite / sqrt(∞) = 0`. -/
def sqrtDiv : PF → PF → SF
  | PF.nan, _ => SF.nan
  | _, PF.nan => SF.nan
  | PF.fin _, PF.inf true => SF.val 0 1
  | PF.inf _, PF.inf true => SF.nan
  | _, PF.inf false => SF.nan
  | a, PF.fin r =>
      if r < 0 then SF.nan
      else if r = 0 then
        match a with
        | PF.fin q => if q = 0 then SF.nan else SF.inf (decide (0 < q))
        | PF.inf s => SF.inf s
        | PF.nan => SF.nan
      else
        match a with
        | PF.fin q => SF.val q r
        | PF.inf s => SF.inf s
        | PF.nan => SF.nan

/-- The rolling z-score of src/app.py with window `W`:
`(x - roll_mean) / roll_std` at position `t`, with `roll_std` the square
root of the `ddof=0` rolling variance. -/
def zscore (W : Nat) (xs : List PF) (t : Nat) : SF :=
  sqrtDiv (pfSub (seriesGet xs t) (roll_mean W xs t)) (roll_var W xs t)

/-- `WINDOW_Q = 20 * 4` from src/app.py. -/
def WINDOW_Q : Nat := 20 * 4

/-- `df["zscore_20y"]` of src/app.py: the rolling z-score with the 80-quarter
window. -/
def zscore_20y (xs : List PF) (t : Nat) : SF := zscore WINDOW_Q xs t

/-!
Header location (src/app.py `load_and_process_data`, lines 105-120).

The scan looks only at the first cell of each row, after
`astype(str).str.strip().str.lower()`; we therefore model the grid by its
first column, a `List String`.
-/

/-- ASCII lower-casing of one character (Python's `str.lower`, restricted to
the ASCII letters that occur in the header tokens at issue). -/
def charLower (c : Char) : Char :=
  match c with
  | 'A' => 'a' | 'B' => 'b' | 'C' => 'c' | 'D' => 'd' | 'E' => 'e' | 'F' => 'f'
  | 'G' => 'g' | 'H' => 'h' | 'I' => 'i' | 'J' => 'j' | 'K' => 'k' | 'L' => 'l'
  | 'M' => 'm' | 'N' => 'n' | 'O' => 'o' | 'P' => 'p' | 'Q' => 'q' | 'R' => 'r'
  | 'S' => 's' | 'T' => 't' | 'U' => 'u' | 'V' => 'v' | 'W' => 'w' | 'X' => 'x'
  | 'Y' => 'y' | 'Z' => 'z'
  | other => other

/-- Python's `str.strip()`: drop whitespace from both ends. -/
def strTrim (s : String) : String :=
  String.mk (((s.data.dropWhile Char.isWhitespace).reverse.dropWhile Char.isWhitespace).reverse)

/-- Python's `str.lower()`. -/
def strLower (s : String) : String := String.mk (s.data.map charLower)

/-- `str.strip().str.lower()` applied to a cell. -/
def normTok (s : String) : String := strLower (strTrim s)

/-- A regex word character (`\w` of the `\b` boundary), ASCII fragment. -/
def isWordChar (c : Char) : Bool := c.isAlphanum || c = '_'

/-- Whether a position boundary is a word boundary: start/end of string, or
a non-word character. -/
def boundaryOk : Option Char → Bool
  | none => true
  | some c => !isWordChar c

/-- Whether the list starts with `date` delimited by word boundaries
(`prev` is the character just before the current position). -/
def startsWordDate (prev : Option Char) (l : List Char) : Bool :=
  boundaryOk prev && decide (l.take 4 = ['d', 'a', 't', 'e']) && boundaryOk (l.drop 4).head?

/-- Scan for a whole-word occurrence of `date` (the regex search
`\bdate\b`). -/
def hasWordDateFrom : Option Char → List Char → Bool
  | prev, [] => startsWordDate prev []
  | prev, c :: rest => startsWordDate prev (c :: rest) || hasWordDateFrom (some c) rest

/-- `first_col.str.contains(r"\bdate\b")` on a single (already normalized)
cell. -/
def containsWordDate (s : String) : Bool := hasWordDateFrom none s.data

/-- Index of the first element satisfying `p` (the `[0]` of the matched
index list in the source). -/
def findIdxFrom (p : String → Bool) : List String → Option Nat
  | [] => none
  | s :: rest => if p s then some 0 else (findIdxFrom p rest).map (· + 1)

/-- Header-row discovery of src/app.py: first pass looks for a first cell
exactly equal to `"date"` after strip/lower; only if that finds nothing,
a second pass looks for a whole-word `date` via the regex. -/
def findHeaderRow (firstCol : List String) : Option Nat :=
  match findIdxFrom (fun s => normTok s = "date") firstCol with
  | some i => some i
  | none => findIdxFrom (fun s => containsWordDate (normTok s)) firstCol

/-- The spec's error taxonomy for the fatal header failures; the source
raises `RuntimeError` with a German message in each case. -/
inductive PipelineError where
  | HeaderNotFound : PipelineError
  | VintageRowMissing : PipelineError
deriving DecidableEq

/-- The header phase of `load_and_process_data`: locate the header row,
then require the vintage row (`header_row + 1`) to exist; returns
`(header_row, vintage_row)` or fails.  The `Except` result is the
all-or-nothing outcome: on error no partial table exists. -/
def locateHeader (firstCol : List String) : Except PipelineError (Nat × Nat) :=
  match findHeaderRow firstCol with
  | none => Except.error PipelineError.HeaderNotFound
  | some h =>
      if h + 1 < firstCol.length then Except.ok (h, h + 1)
      else Except.error PipelineError.VintageRowMissing

/-- Whether a first cell matches the header scan at all (either pass). -/
def headerMatch (s : String) : Bool :=
  decide (normTok s = "date") || containsWordDate (normTok s)

/-!
`make_unique` (src/app.py lines 28-39).

Python renders the counter with `f"{key}_{seen[key]}"`, i.e. the decimal
digits of the integer.  `natRepr` below is that decimal rendering, defined
from scratch so that its two properties needed here (injectivity, and
containing no underscore) can be proved directly.
-/

/-- The decimal digit character of `d` (callers only pass `d < 10`). -/
def digitChr (d : Nat) : Char :=
  match d with
  | 0 => '0' | 1 => '1' | 2 => '2' | 3 => '3' | 4 => '4'
  | 5 => '5' | 6 => '6' | 7 => '7' | 8 => '8' | _ => '9'

/-- Numeric value of a decimal digit character. -/
def chrVal (c : Char) : Nat := c.toNat - 48

/-- Little-endian decimal digits of `n` (empty for `0`), with structural
fuel (any `fuel ≥ n` gives the digits of `n`, see `natDigitsRevAux_fuel`). -/
def natDigitsRevAux : Nat → Nat → List Char
  | _, 0 => []
  | 0, _ + 1 => []
  | f + 1, n + 1 => digitChr ((n + 1) % 10) :: natDigitsRevAux f ((n + 1) / 10)

/-- Little-endian decimal digits of `n` (empty for `0`). -/
def natDigitsRev (n : Nat) : List Char := natDigitsRevAux n n

/-- Decimal rendering of a natural number, as Python's string formatting
produces it. -/
def natRepr (n : Nat) : String :=
  if n = 0 then "0" else String.mk (natDigitsRev n).reverse

/-- Value of a little-endian decimal digit list. -/
def digitsVal : List Char → Nat
  | [] => 0
  | c :: cs => chrVal c + 10 * digitsVal cs

/-- The state-passing loop of `make_unique`: `seen` maps a name to the
counter stored so far (`none` if unseen).  A fresh name is emitted as-is
and recorded with counter `0`; a repeated name increments the counter and
is emitted as `name_<counter>`. -/
def muGo (seen : String → Option Nat) : List String → List String
  | [] => []
  | n :: rest =>
      match seen n with
      | none => n :: muGo (fun k => if k = n then some 0 else seen k) rest
      | some c =>
          (n ++ "_" ++ natRepr (c + 1)) ::
            muGo (fun k => if k = n then some (c + 1) else seen k) rest

/-- `make_unique` from src/app.py. -/
def make_unique (names : List String) : List String := muGo (fun _ => none) names

/-!
Date parsing (src/app.py `parse_quarter_dates`, lines 74-91).

Calendar dates are encoded as the natural number `y*10000 + m*100 + d`; for
valid dates this encoding is strictly monotone in chronological order.

`pd.to_datetime(..., errors="coerce")` is an external library call; it is
embedded as the partial model `genericParse` below, covering exactly the
token shapes that matter for the claims: ISO `YYYY-MM-DD` dates, and the
quarter-abbreviation strings that pandas' datetime-string parser
(`_parse_dateabbr_string`) accepts — `YYYYQn` and `YYYY-Qn`, which pandas
maps to the FIRST day of the quarter.  The colon form `YYYY:Qn` is rejected
there (only `-` is accepted as separator) and dateutil cannot parse it
either, so it coerces to NaT.  Every token outside this fragment is treated
as unparseable.  (pandas ≥ 2.0 can additionally force one strptime format
inferred from the first element of a series; that cross-element coupling is
outside the per-element model.)
-/

/-- Encode a calendar date. -/
def mkDate (y m d : Nat) : Nat := y * 10000 + m * 100 + d

/-- Numeric value of a decimal digit character (same as `chrVal`). -/
def dVal (c : Char) : Nat := c.toNat - 48

/-- Partial model of per-element `pd.to_datetime(tok, errors="coerce")`;
see the section comment above.  Day-of-month validity is approximated by
the range `1..31`. -/
def genericParse (s : String) : Option Nat :=
  match s.data with
  | [y1, y2, y3, y4, '-', m1, m2, '-', d1, d2] =>
      if ([y1, y2, y3, y4, m1, m2, d1, d2].all Char.isDigit) then
        let y := ((dVal y1 * 10 + dVal y2) * 10 + dVal y3) * 10 + dVal y4
        let mo := dVal m1 * 10 + dVal m2
        let da := dVal d1 * 10 + dVal d2
        if 1 ≤ mo && mo ≤ 12 && 1 ≤ da && da ≤ 31 then some (mkDate y mo da)
        else none
      else none
  | [y1, y2, y3, y4, 'Q', q] =>
      if ([y1, y2, y3, y4].all Char.isDigit) && '1' ≤ q && q ≤ '4' then
        some (mkDate (((dVal y1 * 10 + dVal y2) * 10 + dVal y3) * 10 + dVal y4)
          (3 * (dVal q - 1) + 1) 1)
      else none
  | [y1, y2, y3, y4, '-', 'Q', q] =>
      if ([y1, y2, y3, y4].all Char.isDigit) && '1' ≤ q && q ≤ '4' then
        some (mkDate (((dVal y1 * 10 + dVal y2) * 10 + dVal y3) * 10 + dVal y4)
          (3 * (dVal q - 1) + 1) 1)
      else none
  | _ => none

/-- Recognizer for the middle of the quarter regex, `\s*[/:\- ]?\s*`
(separator class written here with the slash first; the source orders it
colon, dash, slash, space):
whitespace with at most one separator character (a separator that is itself
a space is absorbed by `\s*`). -/
def sepOk (l : List Char) : Bool :=
  match l.dropWhile Char.isWhitespace with
  | [] => true
  | c :: rest =>
      (c = ':' || c = '-' || c = '/') && (rest.dropWhile Char.isWhitespace).isEmpty

/-- The quarter regex of src/app.py,
`^(?P<year>\d{4})\s*[/:\- ]?\s*Q(?P<q>[1-4])$` (separator class reordered
as above), returning `(year, quarter)` on a match. -/
def quarterMatch (s : String) : Option (Nat × Nat) :=
  match s.data with
  | y1 :: y2 :: y3 :: y4 :: rest =>
      if [y1, y2, y3, y4].all Char.isDigit then
        match rest.reverse with
        | q :: 'Q' :: midrev =>
            if ('1' ≤ q && q ≤ '4') && sepOk midrev.reverse then
              some ((((dVal y1 * 10 + dVal y2) * 10 + dVal y3) * 10 + dVal y4, dVal q))
            else none
        | _ => none
      else none
  | _ => none

/-- The last calendar day of quarter `q` of year `y` (the
`to_timestamp(how="end").normalize()` of the source): Mar 31, Jun 30,
Sep 30, Dec 31. -/
def quarterEnd (y q : Nat) : Nat :=
  mkDate y (3 * q) (if q = 1 || q = 4 then 31 else 30)

/-- One token of `parse_quarter_dates`: generic parsing first; where that
coerced to missing, the stripped token is tried against the quarter regex
and mapped to the quarter end; otherwise missing. -/
def parseToken (tok : String) : Option Nat :=
  match genericParse tok with
  | some d => some d
  | none =>
      match quarterMatch (strTrim tok) with
      | some (y, q) => some (quarterEnd y q)
      | none => none

/-- `parse_quarter_dates` from src/app.py, on a column of tokens. -/
def parse_quarter_dates (tokens : List String) : List (Option Nat) :=
  tokens.map parseToken

/-!
Vintage selection (src/app.py `pick_vintage_values`, lines 161-187).

A table is its list of columns (name plus cell list) together with its row
count; `pick_vintage_values` never reads the `Date` column's cells, so
those may be arbitrary `PF` values.  The call
`pd.to_datetime([c.split("_")[0] for c in data.columns], errors="coerce")`
is abstracted as a parameter `p : String → Option Nat` (instantiated with
`genericParse` in the concrete examples); `parsed.argsort()` sorts NaT
(`none`) keys to the end, modelled as the stable sort by the pair
(key-with-none-greatest, source position).
-/

/-- One DataFrame column: its name and its cells. -/
structure Col where
  name : String
  vals : List PF
deriving DecidableEq

/-- A DataFrame: columns plus the row count `len(df)`. -/
structure Table where
  nrows : Nat
  cols : List Col
deriving DecidableEq

/-- `c.split("_")[0]`: the part of a column name before the first
underscore (the whole name if it has none). -/
def leadingDatePart (s : String) : String :=
  String.mk (s.data.takeWhile (fun c => c ≠ '_'))

/-- Order on (sort key, source position) pairs: a `none` key (NaT) is
greater than every date key; ties on the key fall back to the source
position, making the sort stable. -/
def keyLe : Option Nat × Nat → Option Nat × Nat → Bool
  | (none, i), (none, j) => i ≤ j
  | (none, _), (some _, _) => false
  | (some _, _), (none, _) => true
  | (some a, i), (some b, j) => a < b || (a = b && i ≤ j)

/-- Attach to every column its sort key and source position. -/
def decorate (p : String → Option Nat) : Nat → List Col → List ((Option Nat × Nat) × Col)
  | _, [] => []
  | i, c :: cs => ((p (leadingDatePart c.name), i), c) :: decorate p (i + 1) cs

/-- The sort relation on decorated columns. -/
def decLe (a b : (Option Nat × Nat) × Col) : Prop := keyLe a.1 b.1 = true

instance : DecidableRel decLe := fun a b => decEq (keyLe a.1 b.1) true

instance : IsTotal ((Option Nat × Nat) × Col) decLe where
  total a b := by
    rcases a with ⟨⟨ka | ka, i⟩, _⟩ <;> rcases b with ⟨⟨kb | kb, j⟩, _⟩
    all_goals try simp [decLe, keyLe, decide_eq_true_eq]
    all_goals omega

instance : IsTrans ((Option Nat × Nat) × Col) decLe where
  trans a b c := by
    rcases a with ⟨⟨ka | ka, i⟩, _⟩ <;> rcases b with ⟨⟨kb | kb, j⟩, _⟩ <;>
      rcases c with ⟨⟨kc | kc, k⟩, _⟩
    all_goals try simp [decLe, keyLe, decide_eq_true_eq]
    all_goals omega

/-- Strict order on the source positions of decorated columns (used to
state stability of the column ordering). -/
def idxLt (a b : (Option Nat × Nat) × Col) : Prop := a.1.2 < b.1.2

instance : IsAntisymm ((Option Nat × Nat) × Col) idxLt where
  antisymm _ _ h1 h2 := absurd (Nat.lt_trans h1 h2) (Nat.lt_irrefl _)

/-- The column-ordering step of `pick_vintage_values`: if no column name
parses as a date the order is left as in the file, else the columns are
reordered by the argsort of their parsed keys (dates ascending, NaT last,
stable). -/
def orderCols (p : String → Option Nat) (cols : List Col) : List Col :=
  if (cols.map (fun c => p (leadingDatePart c.name))).all Option.isNone then cols
  else (List.insertionSort decLe (decorate p 0 cols)).map (fun x => x.2)

/-- Forward-fill a row (pandas `ffill(axis=1)`): a missing cell takes the
nearest non-missing value to its left, if any. -/
def ffillGo (carry : PF) : List PF → List PF
  | [] => []
  | v :: rest =>
      let w := if v.isna then carry else v
      w :: ffillGo w rest

/-- `row.ffill()` along a row. -/
def ffillRow (l : List PF) : List PF := ffillGo PF.nan l

/-- `row.bfill()` along a row: forward fill of the reversal. -/
def bfillRow (l : List PF) : List PF := (ffillGo PF.nan l.reverse).reverse

/-- Row `r` of a column-major table fragment. -/
def rowAt (cols : List Col) (r : Nat) : List PF :=
  cols.map (fun c => c.vals.getD r PF.nan)

/-- The non-`Date` columns that hold at least one non-missing value: the
`data` frame after `df[value_cols].dropna(axis=1, how="all")`. -/
def valueData (t : Table) : List Col :=
  (t.cols.filter (fun c => c.name ≠ "Date")).filter (fun c => !(c.vals.all PF.isna))

/-- `pick_vintage_values` from src/app.py: keep the non-`Date` columns with
at least one value; if none remain, an all-missing column of length
`len(df)` is returned at once (before the mode is examined); else order the
columns, and in mode `latest` forward-fill each row and take its last
entry, in mode `first` backward-fill and take its first entry; any other
mode raises `ValueError` with the source's message. -/
def pick_vintage_values (p : String → Option Nat) (t : Table) (mode : String) :
    Except String (List PF) :=
  let data₀ := valueData t
  if data₀.length = 0 then Except.ok (List.replicate t.nrows PF.nan)
  else
    let data := orderCols p data₀
    if mode = "latest" then
      Except.ok ((List.range t.nrows).map (fun r => (ffillRow (rowAt data r)).getLastD PF.nan))
    else if mode = "first" then
      Except.ok ((List.range t.nrows).map (fun r => (bfillRow (rowAt data r)).headD PF.nan))
    else Except.error "mode muss 'latest' oder 'first' sein"

/-- The value of the chronologically last non-missing vintage column of a
row (the spec's reading of `latest`). -/
def lastNonNA (l : List PF) : PF := (l.filter (fun v => !v.isna)).getLastD PF.nan

/-- The value of the chronologically first non-missing vintage column of a
row (the spec's reading of `first`). -/
def firstNonNA (l : List PF) : PF := (l.filter (fun v => !v.isna)).headD PF.nan

/-- The ordered selection the picked values are read from: the kept value
columns in selection order (empty selection stays empty since `orderCols`
leaves `[]` unchanged). -/
def selectedCols (p : String → Option Nat) (t : Table) : List Col :=
  orderCols p (valueData t)

/-- Example table for the C1 spec scenario: one data row
`[10, NaN, 12, NaN]` across four chronologically named vintage columns
(plus a second row keeping every column non-empty), and a `Date` column. -/
def exTable : Table where
  nrows := 2
  cols :=
    [⟨"Date", [PF.nan, PF.nan]⟩,
     ⟨"1965-11-01", [PF.fin 10, PF.fin 1]⟩,
     ⟨"1966-02-01", [PF.nan, PF.fin 1]⟩,
     ⟨"1966-05-01", [PF.fin 12, PF.fin 1]⟩,
     ⟨"1966-08-01", [PF.nan, PF.fin 1]⟩]

/-- Example table whose only value column is entirely missing. -/
def exTableAllNaN : Table where
  nrows := 1
  cols := [⟨"Date", [PF.nan]⟩, ⟨"A", [PF.nan]⟩]

/-- Example table with a row (the second) in which every vintage column is
missing. -/
def exTableNaNRow : Table where
  nrows := 2
  cols := [⟨"X", [PF.fin 1, PF.nan]⟩, ⟨"Y", [PF.fin 2, PF.nan]⟩]

/-- Example column list with two parseable names out of order, an
unparseable one, and a duplicate-suffixed name. -/
def exCols : List Col :=
  [⟨"2020-05-01", [PF.fin 1]⟩, ⟨"1999-01-01", [PF.fin 2]⟩,
   ⟨"foo", [PF.fin 3]⟩, ⟨"2010-01-01_1", [PF.fin 4]⟩]

/-- The rolling window on a rational series (used to state the rolling
formulas). -/
def windowQ (qs : List ℚ) (W t : Nat) : List ℚ :=
  (qs.take (t + 1)).drop (t + 1 - W)

/-- The spec's example series `[1,2,3,4,5,6,7,8]` for the `W = 4` rolling
z-score. -/
def specSeries8 : List PF := ([1, 2, 3, 4, 5, 6, 7, 8] : List ℚ).map PF.fin

/-!
Lemmas and claim theorems.
-/

lemma pfAdd_nan_left (b : PF) : pfAdd PF.nan b = PF.nan := by cases b <;> rfl

lemma pfAdd_nan_right (a : PF) : pfAdd a PF.nan = PF.nan := by cases a <;> rfl

lemma pfSub_nan_left (b : PF) : pfSub PF.nan b = PF.nan := by
  cases b <;> rfl

lemma pfSub_nan_right (a : PF) : pfSub a PF.nan = PF.nan := by
  cases a <;> rfl

lemma pfMul_nan_left (b : PF) : pfMul PF.nan b = PF.nan := by cases b <;> rfl

lemma pfMul_nan_right (a : PF) : pfMul a PF.nan = PF.nan := by cases a <;> rfl

lemma pfDiv_nan_left (b : PF) : pfDiv PF.nan b = PF.nan := by cases b <;> rfl

lemma pfDiv_nan_right (a : PF) : pfDiv a PF.nan = PF.nan := by cases a <;> rfl

lemma pfPow4_nan : pfPow4 PF.nan = PF.nan := rfl

lemma pfPow4_inf (s : Bool) : pfPow4 (PF.inf s) = PF.inf true := by
  cases s <;> rfl

/-- `calc_qoq_saar` with both operands missing or either operand missing is
missing. -/
lemma calc_qoq_saar_nan_of_num_nan (xs : List PF) (t : Nat)
    (h : seriesGet xs t = PF.nan) : calc_qoq_saar xs t = PF.nan := by
  unfold calc_qoq_saar
  rw [h, pfDiv_nan_left, pfPow4_nan, pfSub_nan_left, pfMul_nan_left]

lemma calc_qoq_saar_nan_of_den_nan (xs : List PF) (t : Nat)
    (h : shiftN 1 xs t = PF.nan) : calc_qoq_saar xs t = PF.nan := by
  unfold calc_qoq_saar
  rw [h, pfDiv_nan_right, pfPow4_nan, pfSub_nan_left, pfMul_nan_left]

/-- The generic finite case of `calc_qoq_saar`: both operands finite and a
nonzero denominator give the quoted growth formula exactly. -/
lemma calc_qoq_saar_fin (xs : List PF) (t : Nat) (a b : ℚ)
    (hn : seriesGet xs t = PF.fin a) (hd : shiftN 1 xs t = PF.fin b) (hb : b ≠ 0) :
    calc_qoq_saar xs t = PF.fin (((a / b) ^ 4 - 1) * 100) := by
  unfold calc_qoq_saar
  rw [hn, hd]
  simp only [pfDiv, pfPow4, pfMul, pfSub, pfAdd, pfNeg, if_neg hb]
  norm_num
  ring

/-- C2, counterexample: the claim says `qoq_saar` is missing whenever the
denominator `level[t-1]` is zero, but on the series `[0, 5]` the code
computes `5 / 0 = +∞` (numpy float semantics), so position 1 carries a
non-missing infinite value. -/
theorem c2_counterexample :
    calc_qoq_saar [PF.fin 0, PF.fin 5] 1 = PF.inf true ∧
      (PF.inf true).isna = false := by
  constructor
  · unfold calc_qoq_saar seriesGet shiftN
    norm_num [pfDiv, pfPow4, pfMul, pfSub, pfAdd, pfNeg]
  · rfl

/-- C2 (amended): `qoq_saar[t] = ((level[t]/level[t-1])^4 - 1) * 100`;
missing at position 0 and whenever either operand is missing, and also when
numerator and denominator are both zero; a zero denominator with a nonzero
finite numerator instead yields `+∞` (not missing); a constant level series
of value 100 yields 0 everywhere except position 0. -/
theorem c2_qoq_saar :
    (∀ xs : List PF, calc_qoq_saar xs 0 = PF.nan)
    ∧ (∀ (xs : List PF) (t : Nat), seriesGet xs t = PF.nan → calc_qoq_saar xs t = PF.nan)
    ∧ (∀ (xs : List PF) (t : Nat), shiftN 1 xs t = PF.nan → calc_qoq_saar xs t = PF.nan)
    ∧ (∀ (xs : List PF) (t : Nat) (a b : ℚ), seriesGet xs t = PF.fin a →
        shiftN 1 xs t = PF.fin b → b ≠ 0 →
        calc_qoq_saar xs t = PF.fin (((a / b) ^ 4 - 1) * 100))
    ∧ (∀ (xs : List PF) (t : Nat) (a : ℚ), seriesGet xs t = PF.fin a →
        shiftN 1 xs t = PF.fin 0 → a ≠ 0 → calc_qoq_saar xs t = PF.inf true)
    ∧ (∀ (xs : List PF) (t : Nat), seriesGet xs t = PF.fin 0 →
        shiftN 1 xs t = PF.fin 0 → calc_qoq_saar xs t = PF.nan)
    ∧ (∀ t : Nat, t < 6 → 1 ≤ t →
        calc_qoq_saar (List.replicate 6 (PF.fin 100)) t = PF.fin 0)
    ∧ calc_qoq_saar (List.replicate 6 (PF.fin 100)) 0 = PF.nan := by
  refine ⟨?_, ?_, ?_, calc_qoq_saar_fin, ?_, ?_, ?_, ?_⟩
  · intro xs
    exact calc_qoq_saar_nan_of_den_nan xs 0 rfl
  · exact calc_qoq_saar_nan_of_num_nan
  · exact calc_qoq_saar_nan_of_den_nan
  · intro xs t a hn hd ha
    unfold calc_qoq_saar
    rw [hn, hd]
    rcases lt_trichotomy a 0 with h | h | h
    · simp only [pfDiv, if_pos rfl, if_neg ha, pfPow4, pfMul, pfSub, pfAdd, pfNeg]
      norm_num [h, not_lt.mpr (le_of_lt h)]
    · exact absurd h ha
    · simp only [pfDiv, if_pos rfl, if_neg ha, pfPow4, pfMul, pfSub, pfAdd, pfNeg]
      norm_num [h]
  · intro xs t hn hd
    unfold calc_qoq_saar
    rw [hn, hd]
    norm_num [pfDiv, pfPow4, pfMul, pfSub, pfAdd, pfNeg]
  · intro t ht h1
    interval_cases t <;>
      rw [calc_qoq_saar_fin _ _ 100 100 (by rfl) (by rfl) (by norm_num)] <;> norm_num
  · exact calc_qoq_saar_nan_of_den_nan _ 0 rfl

/-- C2 witness: the amended theorem applied at concrete inputs — the growth
formula on `[100, 110]` at `t = 1`, NaN propagation on `[NaN, 1]`, and the
two zero-denominator branches. -/
theorem c2_witness :
    calc_qoq_saar [PF.fin 100, PF.fin 110] 1 = PF.fin (((110 / 100 : ℚ) ^ 4 - 1) * 100)
    ∧ calc_qoq_saar [PF.nan, PF.fin 1] 1 = PF.nan
    ∧ calc_qoq_saar [PF.fin 0, PF.fin 5] 1 = PF.inf true
    ∧ calc_qoq_saar [PF.fin 0, PF.fin 0] 1 = PF.nan := by
  refine ⟨?_, ?_, ?_, ?_⟩
  · exact c2_qoq_saar.2.2.2.1 [PF.fin 100, PF.fin 110] 1 110 100 rfl rfl (by norm_num)
  · exact c2_qoq_saar.2.2.1 [PF.nan, PF.fin 1] 1 rfl
  · exact c2_qoq_saar.2.2.2.2.1 [PF.fin 0, PF.fin 5] 1 5 rfl rfl (by norm_num)
  · exact c2_qoq_saar.2.2.2.2.2.1 [PF.fin 0, PF.fin 0] 1 rfl rfl

lemma calc_yoy_nan_of_num_nan (xs : List PF) (t : Nat)
    (h : seriesGet xs t = PF.nan) : calc_yoy xs t = PF.nan := by
  unfold calc_yoy
  rw [h, pfDiv_nan_left, pfSub_nan_left, pfMul_nan_right]

lemma calc_yoy_nan_of_den_nan (xs : List PF) (t : Nat)
    (h : shiftN 4 xs t = PF.nan) : calc_yoy xs t = PF.nan := by
  unfold calc_yoy
  rw [h, pfDiv_nan_right, pfSub_nan_left, pfMul_nan_right]

/-- The generic finite case of `calc_yoy`. -/
lemma calc_yoy_fin (xs : List PF) (t : Nat) (a b : ℚ)
    (hn : seriesGet xs t = PF.fin a) (hd : shiftN 4 xs t = PF.fin b) (hb : b ≠ 0) :
    calc_yoy xs t = PF.fin (100 * (a / b - 1)) := by
  unfold calc_yoy
  rw [hn, hd]
  simp only [pfDiv, pfMul, pfSub, pfAdd, pfNeg, if_neg hb]
  norm_num
  ring

/-- C4: the year-over-year column (spec-modelled, see `calc_yoy`) satisfies
`yoy[t] = 100 * (level[t] / level[t-4] - 1)`, is missing for the first four
positions and whenever either operand is missing; a constant level series
of value 100 over 8 quarters yields 0 at positions 4..7 and missing at
positions 0..3. -/
theorem c4_yoy :
    (∀ (xs : List PF) (t : Nat), t < 4 → calc_yoy xs t = PF.nan)
    ∧ (∀ (xs : List PF) (t : Nat), seriesGet xs t = PF.nan → calc_yoy xs t = PF.nan)
    ∧ (∀ (xs : List PF) (t : Nat), shiftN 4 xs t = PF.nan → calc_yoy xs t = PF.nan)
    ∧ (∀ (xs : List PF) (t : Nat) (a b : ℚ), seriesGet xs t = PF.fin a →
        shiftN 4 xs t = PF.fin b → b ≠ 0 →
        calc_yoy xs t = PF.fin (100 * (a / b - 1)))
    ∧ (∀ t : Nat, t < 8 → 4 ≤ t →
        calc_yoy (List.replicate 8 (PF.fin 100)) t = PF.fin 0)
    ∧ (∀ t : Nat, t < 4 → calc_yoy (List.replicate 8 (PF.fin 100)) t = PF.nan) := by
  refine ⟨?_, calc_yoy_nan_of_num_nan, calc_yoy_nan_of_den_nan, calc_yoy_fin, ?_, ?_⟩
  · intro xs t ht
    apply calc_yoy_nan_of_den_nan
    unfold shiftN
    rw [if_pos ht]
  · intro t ht h4
    interval_cases t <;>
      rw [calc_yoy_fin _ _ 100 100 (by rfl) (by rfl) (by norm_num)] <;> norm_num
  · intro t ht
    apply calc_yoy_nan_of_den_nan
    unfold shiftN
    rw [if_pos ht]

/-- C4 witness: the modelled `yoy` at concrete inputs — a 10% rise over
four quarters and the missing cases. -/
theorem c4_witness :
    calc_yoy [PF.fin 100, PF.fin 101, PF.fin 102, PF.fin 103, PF.fin 110] 4 =
      PF.fin (100 * ((110 / 100 : ℚ) - 1))
    ∧ calc_yoy [PF.fin 100, PF.fin 101, PF.fin 102, PF.fin 103, PF.fin 110] 2 = PF.nan
    ∧ calc_yoy [PF.fin 1, PF.fin 1, PF.fin 1, PF.fin 1, PF.nan] 4 = PF.nan := by
  refine ⟨?_, ?_, ?_⟩
  · exact c4_yoy.2.2.2.1 [PF.fin 100, PF.fin 101, PF.fin 102, PF.fin 103, PF.fin 110]
      4 110 100 rfl rfl (by norm_num)
  · exact c4_yoy.1 _ 2 (by omega)
  · exact c4_yoy.2.1 _ 4 rfl

/-- The last element of a forward-filled row is the last non-missing entry
of the row (or the carry if there is none). -/
lemma ffillGo_getLastD (l : List PF) : ∀ c : PF,
    (ffillGo c l).getLastD c = (l.filter (fun v => !v.isna)).getLastD c := by
  induction l with
  | nil => intro c; rfl
  | cons v rest ih =>
      intro c
      by_cases hv : v.isna
      · have hb : (!v.isna) = false := by rw [hv]; rfl
        simp only [ffillGo, if_pos hv, List.getLastD_cons, List.filter_cons, hb,
          Bool.false_eq_true, if_false]
        exact ih c
      · have hb : (!v.isna) = true := by
          rw [Bool.not_eq_true] at hv
          rw [hv]; rfl
        simp only [ffillGo, if_neg hv, List.getLastD_cons, List.filter_cons, hb,
          if_true]
        exact ih v

lemma ffillRow_getLastD (l : List PF) :
    (ffillRow l).getLastD PF.nan = lastNonNA l := by
  unfold ffillRow lastNonNA
  exact ffillGo_getLastD l PF.nan

lemma headD_reverse (l : List PF) (d : PF) : l.reverse.headD d = l.getLastD d := by
  rw [List.headD_eq_head?, List.head?_reverse, List.getLastD_eq_getLast?]

lemma getLastD_reverse (l : List PF) (d : PF) : l.reverse.getLastD d = l.headD d := by
  rw [List.getLastD_eq_getLast?, List.getLast?_reverse, List.headD_eq_head?]

lemma bfillRow_headD (l : List PF) :
    (bfillRow l).headD PF.nan = firstNonNA l := by
  unfold bfillRow firstNonNA
  rw [headD_reverse, ffillGo_getLastD, List.filter_reverse, getLastD_reverse]

/-- `orderCols` of no columns is no columns. -/
lemma orderCols_nil (p : String → Option Nat) : orderCols p [] = [] := rfl

/-- The general shape of `pick_vintage_values` in mode `latest`. -/
lemma pick_latest_eq (p : String → Option Nat) (t : Table) :
    pick_vintage_values p t "latest" =
      Except.ok ((List.range t.nrows).map
        (fun r => lastNonNA (rowAt (selectedCols p t) r))) := by
  unfold pick_vintage_values selectedCols
  by_cases h : (valueData t).length = 0
  · rw [if_pos h]
    rw [List.length_eq_zero] at h
    rw [h, orderCols_nil]
    have : ∀ r : Nat, lastNonNA (rowAt [] r) = PF.nan := fun _ => rfl
    simp only [this, List.map_const', List.length_range]
  · rw [if_neg h]
    simp only [ffillRow_getLastD, if_true, reduceIte]

/-- The general shape of `pick_vintage_values` in mode `first`. -/
lemma pick_first_eq (p : String → Option Nat) (t : Table) :
    pick_vintage_values p t "first" =
      Except.ok ((List.range t.nrows).map
        (fun r => firstNonNA (rowAt (selectedCols p t) r))) := by
  unfold pick_vintage_values selectedCols
  by_cases h : (valueData t).length = 0
  · rw [if_pos h]
    rw [List.length_eq_zero] at h
    rw [h, orderCols_nil]
    have : ∀ r : Nat, firstNonNA (rowAt [] r) = PF.nan := fun _ => rfl
    simp only [this, List.map_const', List.length_range]
  · rw [if_neg h]
    simp only [bfillRow_headD, reduceIte]
    rw [if_neg (by decide)]

/-- C1: in mode `latest`, `pick_vintage_values` returns, for every row of
every table, the value of the last non-missing entry across the
selection-ordered vintage columns (forward-fill then last column), and in
mode `first` the first non-missing entry (backward-fill then first
column); an all-missing row yields NaN, not an error.  On the spec's
example row `[10, NaN, 12, NaN]` across chronologically named columns,
`latest` yields 12 and `first` yields 10. -/
theorem c1_vintage_selection :
    (∀ l : List PF, (ffillRow l).getLastD PF.nan = lastNonNA l)
    ∧ (∀ l : List PF, (bfillRow l).headD PF.nan = firstNonNA l)
    ∧ (∀ (p : String → Option Nat) (t : Table),
        pick_vintage_values p t "latest" =
          Except.ok ((List.range t.nrows).map
            (fun r => lastNonNA (rowAt (selectedCols p t) r))))
    ∧ (∀ (p : String → Option Nat) (t : Table),
        pick_vintage_values p t "first" =
          Except.ok ((List.range t.nrows).map
            (fun r => firstNonNA (rowAt (selectedCols p t) r))))
    ∧ pick_vintage_values genericParse exTable "latest" = Except.ok [PF.fin 12, PF.fin 1]
    ∧ pick_vintage_values genericParse exTable "first" = Except.ok [PF.fin 10, PF.fin 1]
    ∧ pick_vintage_values genericParse exTableAllNaN "latest" = Except.ok [PF.nan]
    ∧ pick_vintage_values genericParse exTableNaNRow "latest" =
        Except.ok [PF.fin 2, PF.nan] :=
  ⟨ffillRow_getLastD, bfillRow_headD, pick_latest_eq, pick_first_eq,
    by rfl, by rfl, by rfl, by rfl⟩

/-- C10: an unknown mode string reaches the `ValueError` only when at least
one value column carries a non-missing entry; if every value column is
entirely missing (or there is none), `pick_vintage_values` returns an
all-missing column of the table's length before ever validating the mode. -/
theorem c10_mode_validation :
    ∀ (p : String → Option Nat) (t : Table) (mode : String),
      mode ≠ "latest" → mode ≠ "first" →
      (valueData t = [] →
        pick_vintage_values p t mode = Except.ok (List.replicate t.nrows PF.nan))
      ∧ (valueData t ≠ [] →
        pick_vintage_values p t mode =
          Except.error "mode muss 'latest' oder 'first' sein") := by
  intro p t mode h1 h2
  constructor
  · intro he
    unfold pick_vintage_values
    rw [if_pos (by rw [he]; rfl)]
  · intro hne
    have hlen : ¬ (valueData t).length = 0 := by
      rwa [List.length_eq_zero]
    unfold pick_vintage_values
    rw [if_neg hlen, if_neg h1, if_neg h2]

/-- C10 witness: the mode `"weird"` errors on a table with a live value
column and silently returns all-missing on a table whose value column is
all-NaN. -/
theorem c10_witness :
    pick_vintage_values genericParse exTableNaNRow "weird" =
      Except.error "mode muss 'latest' oder 'first' sein"
    ∧ pick_vintage_values genericParse exTableAllNaN "weird" =
      Except.ok (List.replicate 1 PF.nan) :=
  ⟨(c10_mode_validation genericParse exTableNaNRow "weird" (by decide) (by decide)).2
      (by decide),
    (c10_mode_validation genericParse exTableAllNaN "weird" (by decide) (by decide)).1
      (by decide)⟩

/-- `findIdxFrom` finds nothing iff no element matches. -/
lemma findIdxFrom_eq_none_iff (p : String → Bool) (l : List String) :
    findIdxFrom p l = none ↔ ∀ s ∈ l, p s = false := by
  induction l with
  | nil => simp [findIdxFrom]
  | cons s rest ih =>
      by_cases hs : p s
      · simp [findIdxFrom, hs]
      · simp [findIdxFrom, hs, ih]

/-- `findIdxFrom` returns the first matching index. -/
lemma findIdxFrom_first (p : String → Bool) (l : List String) : ∀ i : Nat,
    i < l.length → p (l.getD i "") = true →
    (∀ j, j < i → p (l.getD j "") = false) → findIdxFrom p l = some i := by
  induction l with
  | nil => intro i hi; exact absurd hi (by simp)
  | cons s rest ih =>
      intro i hi hp hfirst
      cases i with
      | zero =>
          unfold findIdxFrom
          rw [if_pos (show p s = true from hp)]
      | succ j =>
          have hs : p s = false := hfirst 0 (Nat.succ_pos j)
          unfold findIdxFrom
          rw [if_neg (by rw [hs]; exact Bool.false_ne_true)]
          have hr : findIdxFrom p rest = some j := by
            refine ih j (by simpa using hi) (show p (rest.getD j "") = true from hp) ?_
            intro j' hj'
            exact hfirst (j' + 1) (by omega)
          rw [hr]
          rfl

/-- C6, counterexample: the claim makes the header row the FIRST row whose
first cell equals or contains the whole word "date"; row 0, `"start date"`,
contains it, yet the code's exact pass picks row 1 (`"Date"`). -/
theorem c6_counterexample :
    headerMatch "start date" = true ∧
      findHeaderRow ["start date", "Date"] = some 1 ∧ (1 : Nat) ≠ 0 := by
  refine ⟨by decide, by decide, by decide⟩

/-- C6 (amended): the header row is the first row whose first cell,
case-insensitively trimmed, equals `"date"` exactly; only when no row
matches exactly does the scan fall back to the first row containing
`"date"` as a whole word.  In particular a grid containing a row whose
first cell is exactly `"Date"`, with no earlier exactly matching row,
returns that row's index. -/
theorem c6_header_scan : ∀ (g : List String) (i : Nat),
    (i < g.length → normTok (g.getD i "") = "date" →
      (∀ j, j < i → normTok (g.getD j "") ≠ "date") → findHeaderRow g = some i)
    ∧ ((∀ s ∈ g, normTok s ≠ "date") → i < g.length →
      containsWordDate (normTok (g.getD i "")) = true →
      (∀ j, j < i → containsWordDate (normTok (g.getD j "")) = false) →
      findHeaderRow g = some i) := by
  intro g i
  constructor
  · intro hi hp hfirst
    unfold findHeaderRow
    rw [findIdxFrom_first (fun s => decide (normTok s = "date")) g i hi
      (by simpa using hp) (by intro j hj; simpa using hfirst j hj)]
  · intro hnone hi hp hfirst
    unfold findHeaderRow
    rw [(findIdxFrom_eq_none_iff (fun s => decide (normTok s = "date")) g).mpr
      (by intro s hs; simpa using hnone s hs)]
    exact findIdxFrom_first _ g i hi hp hfirst

/-- C6 witness: the amended scan applied to the grid `["junk", "Date"]`,
returning header row 1. -/
theorem c6_witness : findHeaderRow ["junk", "Date"] = some 1 :=
  (c6_header_scan ["junk", "Date"] 1).1 (by decide) (by decide)
    (by intro j hj; interval_cases j; decide)

/-- C9: if no first cell matches the header scan the pipeline fails with
`HeaderNotFound`; if the row after the header row does not exist it fails
with `VintageRowMissing`; the `Except` result carries no table in either
case (all-or-nothing). -/
theorem c9_header_errors : ∀ g : List String,
    ((∀ s ∈ g, headerMatch s = false) →
      locateHeader g = Except.error PipelineError.HeaderNotFound)
    ∧ (∀ h : Nat, findHeaderRow g = some h → g.length ≤ h + 1 →
      locateHeader g = Except.error PipelineError.VintageRowMissing) := by
  intro g
  constructor
  · intro hnone
    have h1 : findIdxFrom (fun s => decide (normTok s = "date")) g = none := by
      rw [findIdxFrom_eq_none_iff]
      intro s hs
      have := hnone s hs
      unfold headerMatch at this
      simpa using (Bool.or_eq_false_iff.mp this).1
    have h2 : findIdxFrom (fun s => containsWordDate (normTok s)) g = none := by
      rw [findIdxFrom_eq_none_iff]
      intro s hs
      have := hnone s hs
      unfold headerMatch at this
      exact (Bool.or_eq_false_iff.mp this).2
    unfold locateHeader findHeaderRow
    rw [h1, h2]
  · intro h hf hlen
    have hstep : locateHeader g =
        if h + 1 < g.length then Except.ok (h, h + 1)
        else Except.error PipelineError.VintageRowMissing := by
      unfold locateHeader
      rw [hf]
    rw [hstep, if_neg (by omega)]

/-- C9 witness: a grid with no date row fails with `HeaderNotFound`; a grid
whose last row is the header fails with `VintageRowMissing`. -/
theorem c9_witness :
    locateHeader ["a", "b"] = Except.error PipelineError.HeaderNotFound
    ∧ locateHeader ["x", "date"] = Except.error PipelineError.VintageRowMissing :=
  ⟨(c9_header_errors ["a", "b"]).1 (by decide),
    (c9_header_errors ["x", "date"]).2 1 (by decide) (by decide)⟩

/-- C5, counterexample: the claim sends every token matching the quarter
pattern — including `"1965Q1"` — to the last day of the quarter
(1965-03-31).  But generic parsing is attempted first and pandas' datetime
parser itself accepts `"1965Q1"`, producing the FIRST day of the quarter
(1965-01-01), so the quarter-end fallback is never reached for it. -/
theorem c5_counterexample :
    parse_quarter_dates ["1965Q1"] = [some (mkDate 1965 1 1)]
    ∧ mkDate 1965 1 1 ≠ quarterEnd 1965 1 :=
  ⟨by decide, by decide⟩

/-- C5 (amended): parsing is total and length-preserving; a token on which
generic parsing fails and which matches the quarter regex maps to the last
calendar day of its quarter; a token matching neither parser becomes
missing rather than an error; tokens the generic parser already accepts
(e.g. `"1965Q1"`, `"1965-Q1"`) keep its result — the first day of the
quarter — while `"1965:Q1"` reaches the fallback and maps to 1965-03-31. -/
theorem c5_date_parsing :
    (∀ tokens : List String, (parse_quarter_dates tokens).length = tokens.length)
    ∧ (∀ tok : String, genericParse tok = none → ∀ y q : Nat,
        quarterMatch (strTrim tok) = some (y, q) → parseToken tok = some (quarterEnd y q))
    ∧ (∀ tok : String, genericParse tok = none → quarterMatch (strTrim tok) = none →
        parseToken tok = none)
    ∧ (∀ (tok : String) (d : Nat), genericParse tok = some d → parseToken tok = some d)
    ∧ parse_quarter_dates ["1965:Q1", "1965Q1", "1965-Q1"] =
        [some (quarterEnd 1965 1), some (mkDate 1965 1 1), some (mkDate 1965 1 1)]
    ∧ quarterEnd 1965 1 = mkDate 1965 3 31 := by
  refine ⟨?_, ?_, ?_, ?_, by decide, by decide⟩
  · intro tokens
    unfold parse_quarter_dates
    exact List.length_map tokens parseToken
  · intro tok hg y q hq
    unfold parseToken
    rw [hg, hq]
  · intro tok hg hq
    unfold parseToken
    rw [hg, hq]
  · intro tok d hg
    unfold parseToken
    rw [hg]

/-- C5 witness: the colon form reaches the quarter-end fallback; a garbage
token becomes missing; an ISO token is kept by the generic stage. -/
theorem c5_witness :
    parseToken "1965:Q1" = some (quarterEnd 1965 1)
    ∧ parseToken "garbage" = none
    ∧ parseToken "2023-11-01" = some (mkDate 2023 11 1) :=
  ⟨c5_date_parsing.2.1 "1965:Q1" (by decide) 1965 1 (by decide),
    c5_date_parsing.2.2.1 "garbage" (by decide) (by decide),
    c5_date_parsing.2.2.2.1 "2023-11-01" (mkDate 2023 11 1) (by decide)⟩

lemma pfSum_map_fin (l : List ℚ) : pfSum (l.map PF.fin) = PF.fin l.sum := by
  induction l with
  | nil => rfl
  | cons q rest ih =>
      simp only [List.map_cons, pfSum, List.foldr_cons]
      have : List.foldr pfAdd (PF.fin 0) (rest.map PF.fin) = PF.fin rest.sum := ih
      rw [this]
      simp [pfAdd, List.sum_cons]

lemma filter_notna_map_fin (l : List ℚ) :
    (l.map PF.fin).filter (fun v => !v.isna) = l.map PF.fin := by
  rw [List.filter_eq_self]
  intro v hv
  rcases List.mem_map.mp hv with ⟨q, _, rfl⟩
  rfl

lemma window_map_fin (qs : List ℚ) (W t : Nat) :
    window (qs.map PF.fin) W t = (windowQ qs W t).map PF.fin := by
  unfold window windowQ
  rw [List.map_drop, List.map_take]

lemma pfSub_fin (a b : ℚ) : pfSub (PF.fin a) (PF.fin b) = PF.fin (a - b) := by
  simp [pfSub, pfAdd, pfNeg, sub_eq_add_neg]

lemma pfDiv_fin_of_ne (a b : ℚ) (hb : b ≠ 0) :
    pfDiv (PF.fin a) (PF.fin b) = PF.fin (a / b) := by
  simp [pfDiv, hb]

/-- The full-window rolling mean on a rational series is the arithmetic
mean with divisor `W`. -/
lemma roll_mean_fin (qs : List ℚ) (W t : Nat) (hW : W ≠ 0)
    (hw : (windowQ qs W t).length = W) :
    roll_mean W (qs.map PF.fin) t = PF.fin ((windowQ qs W t).sum / (W : ℚ)) := by
  unfold roll_mean notNAWindow
  rw [window_map_fin, filter_notna_map_fin, List.length_map, hw, if_pos (le_refl W),
    pfSum_map_fin, pfDiv_fin_of_ne _ _ (by exact_mod_cast hW)]

/-- The full-window rolling population variance on a rational series is the
mean of squared deviations with divisor `W` (not `W - 1`). -/
lemma roll_var_fin (qs : List ℚ) (W t : Nat) (hW : W ≠ 0)
    (hw : (windowQ qs W t).length = W) :
    roll_var W (qs.map PF.fin) t =
      PF.fin (((windowQ qs W t).map
        (fun q => (q - (windowQ qs W t).sum / (W : ℚ)) ^ 2)).sum / (W : ℚ)) := by
  unfold roll_var
  rw [roll_mean_fin qs W t hW hw]
  unfold notNAWindow
  rw [window_map_fin, filter_notna_map_fin, List.length_map, hw, if_pos (le_refl W)]
  have hmap : ((windowQ qs W t).map PF.fin).map
      (fun v => pfMul (pfSub v (PF.fin ((windowQ qs W t).sum / (W : ℚ))))
        (pfSub v (PF.fin ((windowQ qs W t).sum / (W : ℚ))))) =
      ((windowQ qs W t).map
        (fun q => (q - (windowQ qs W t).sum / (W : ℚ)) ^ 2)).map PF.fin := by
    rw [List.map_map, List.map_map]
    apply List.map_congr_left
    intro q _
    simp only [Function.comp_apply, pfSub_fin, pfMul, pow_two]
  rw [hmap, pfSum_map_fin, pfDiv_fin_of_ne _ _ (by exact_mod_cast hW)]

lemma sqrtDiv_nan_right (a : PF) : sqrtDiv a PF.nan = SF.nan := by
  cases a <;> rfl

lemma window_length_le (xs : List PF) (W t : Nat) : (window xs W t).length ≤ W := by
  unfold window
  rw [List.length_drop, List.length_take]
  omega

/-- A window with fewer than `W` non-missing values yields a missing
z-score. -/
lemma zscore_nan_of_short_window (W : Nat) (xs : List PF) (t : Nat)
    (hlt : ((window xs W t).filter (fun v => !v.isna)).length < W) :
    zscore W xs t = SF.nan := by
  unfold zscore
  have hm : roll_mean W xs t = PF.nan := by
    unfold roll_mean notNAWindow
    rw [if_neg (by omega)]
  have hv : roll_var W xs t = PF.nan := by
    unfold roll_var notNAWindow
    rw [if_neg (by omega)]
  rw [hm, hv, pfSub_nan_right, sqrtDiv_nan_right]

/-- C3: the rolling z-score is `(x[t] - mean) / std` with the mean and the
`ddof=0` population variance over the width-`W` positional window (divisor
`W`, not `W-1`); it is missing unless all `W` window positions ending at
`t` are non-missing; on the series `[1..8]` with `W = 4` the first defined
value appears at index 3, computed from `[1,2,3,4]` (mean `5/2`, variance
`5/4`, z-score `(3/2)/√(5/4)`), and indices 0–2 are missing. -/
theorem c3_rolling_zscore :
    (∀ (W : Nat) (xs : List PF) (t : Nat), zscore W xs t =
      sqrtDiv (pfSub (seriesGet xs t) (roll_mean W xs t)) (roll_var W xs t))
    ∧ (∀ (qs : List ℚ) (W t : Nat), W ≠ 0 → (windowQ qs W t).length = W →
        roll_mean W (qs.map PF.fin) t = PF.fin ((windowQ qs W t).sum / (W : ℚ)))
    ∧ (∀ (qs : List ℚ) (W t : Nat), W ≠ 0 → (windowQ qs W t).length = W →
        roll_var W (qs.map PF.fin) t =
          PF.fin (((windowQ qs W t).map
            (fun q => (q - (windowQ qs W t).sum / (W : ℚ)) ^ 2)).sum / (W : ℚ)))
    ∧ (∀ (W : Nat) (xs : List PF) (t : Nat),
        ((window xs W t).filter (fun v => !v.isna)).length < W → zscore W xs t = SF.nan)
    ∧ (∀ (W : Nat) (xs : List PF) (t : Nat), zscore W xs t ≠ SF.nan →
        (window xs W t).length = W ∧ ∀ v ∈ window xs W t, v.isna = false)
    ∧ zscore 4 specSeries8 0 = SF.nan ∧ zscore 4 specSeries8 1 = SF.nan
    ∧ zscore 4 specSeries8 2 = SF.nan
    ∧ zscore 4 specSeries8 3 = SF.val (3 / 2) (5 / 4)
    ∧ roll_mean 4 specSeries8 3 = PF.fin (5 / 2)
    ∧ roll_var 4 specSeries8 3 = PF.fin (5 / 4) := by
  refine ⟨fun _ _ _ => rfl, roll_mean_fin, roll_var_fin, zscore_nan_of_short_window,
    ?_, ?_, ?_, ?_, ?_, ?_, ?_⟩
  · intro W xs t hz
    have h1 : W ≤ ((window xs W t).filter (fun v => !v.isna)).length := by
      by_contra hlt
      exact hz (zscore_nan_of_short_window W xs t (by omega))
    have h2 := List.length_filter_le (fun v => !v.isna) (window xs W t)
    have h3 := window_length_le xs W t
    have hlen : (window xs W t).length = W := by omega
    have hfl : ((window xs W t).filter (fun v => !v.isna)).length =
        (window xs W t).length := by omega
    refine ⟨hlen, ?_⟩
    intro v hv
    have := List.filter_length_eq_length.mp hfl v hv
    rwa [Bool.not_eq_true'] at this
  · have hm : roll_mean 4 specSeries8 0 = PF.nan := by
      unfold roll_mean
      rw [if_neg (by decide)]
    have hv : roll_var 4 specSeries8 0 = PF.nan := by
      unfold roll_var
      rw [if_neg (by decide)]
    unfold zscore
    rw [hm, hv, pfSub_nan_right, sqrtDiv_nan_right]
  · have hm : roll_mean 4 specSeries8 1 = PF.nan := by
      unfold roll_mean
      rw [if_neg (by decide)]
    have hv : roll_var 4 specSeries8 1 = PF.nan := by
      unfold roll_var
      rw [if_neg (by decide)]
    unfold zscore
    rw [hm, hv, pfSub_nan_right, sqrtDiv_nan_right]
  · have hm : roll_mean 4 specSeries8 2 = PF.nan := by
      unfold roll_mean
      rw [if_neg (by decide)]
    have hv : roll_var 4 specSeries8 2 = PF.nan := by
      unfold roll_var
      rw [if_neg (by decide)]
    unfold zscore
    rw [hm, hv, pfSub_nan_right, sqrtDiv_nan_right]
  · have hm := roll_mean_fin [1, 2, 3, 4, 5, 6, 7, 8] 4 3 (by decide) (by decide)
    have hv := roll_var_fin [1, 2, 3, 4, 5, 6, 7, 8] 4 3 (by decide) (by decide)
    unfold zscore
    rw [show specSeries8 = ([1, 2, 3, 4, 5, 6, 7, 8] : List ℚ).map PF.fin from rfl,
      hm, hv]
    norm_num [windowQ, seriesGet, pfSub_fin, sqrtDiv]
  · have hm := roll_mean_fin [1, 2, 3, 4, 5, 6, 7, 8] 4 3 (by decide) (by decide)
    rw [show specSeries8 = ([1, 2, 3, 4, 5, 6, 7, 8] : List ℚ).map PF.fin from rfl, hm]
    norm_num [windowQ]
  · have hv := roll_var_fin [1, 2, 3, 4, 5, 6, 7, 8] 4 3 (by decide) (by decide)
    rw [show specSeries8 = ([1, 2, 3, 4, 5, 6, 7, 8] : List ℚ).map PF.fin from rfl, hv]
    norm_num [windowQ]

/-- C3 witness: the rolling formulas applied to the window `[1,2,3,4]`
(mean `5/2`, population variance `5/4` — the `W-1` divisor would give
`5/3`), the partial-window clause at index 2, and the definedness clause at
index 3. -/
theorem c3_witness :
    roll_mean 4 (([1, 2, 3, 4] : List ℚ).map PF.fin) 3 = PF.fin ((10 : ℚ) / 4)
    ∧ zscore 4 specSeries8 2 = SF.nan
    ∧ ((window specSeries8 4 3).length = 4 ∧
        ∀ v ∈ window specSeries8 4 3, v.isna = false) := by
  refine ⟨?_, ?_, ?_⟩
  · have h := c3_rolling_zscore.2.1 [1, 2, 3, 4] 4 3 (by decide) (by decide)
    rw [h]
    norm_num [windowQ]
  · exact c3_rolling_zscore.2.2.2.1 4 specSeries8 2 (by decide)
  · refine c3_rolling_zscore.2.2.2.2.1 4 specSeries8 3 ?_
    rw [c3_rolling_zscore.2.2.2.2.2.2.2.2.1]
    decide

lemma decorate_map_snd (p : String → Option Nat) :
    ∀ (i : Nat) (cols : List Col), (decorate p i cols).map (fun x => x.2) = cols := by
  intro i cols
  induction cols generalizing i with
  | nil => rfl
  | cons c cs ih => simp [decorate, ih]

lemma decorate_mem_key (p : String → Option Nat) :
    ∀ (i : Nat) (cols : List Col) (x : (Option Nat × Nat) × Col), x ∈ decorate p i cols →
      x.1.1 = p (leadingDatePart x.2.name) := by
  intro i cols
  induction cols generalizing i with
  | nil => intro x hx; exact absurd hx (List.not_mem_nil x)
  | cons c cs ih =>
      intro x hx
      rcases List.mem_cons.mp hx with h | h
      · rw [h]
      · exact ih (i + 1) x h

lemma decorate_mem_idx (p : String → Option Nat) :
    ∀ (i : Nat) (cols : List Col) (x : (Option Nat × Nat) × Col), x ∈ decorate p i cols →
      i ≤ x.1.2 := by
  intro i cols
  induction cols generalizing i with
  | nil => intro x hx; exact absurd hx (List.not_mem_nil x)
  | cons c cs ih =>
      intro x hx
      rcases List.mem_cons.mp hx with h | h
      · rw [h]
      · exact Nat.le_of_succ_le (ih (i + 1) x h)

lemma decorate_idx_pairwise (p : String → Option Nat) :
    ∀ (i : Nat) (cols : List Col), List.Pairwise idxLt (decorate p i cols) := by
  intro i cols
  induction cols generalizing i with
  | nil => exact List.Pairwise.nil
  | cons c cs ih =>
      refine List.Pairwise.cons ?_ (ih (i + 1))
      intro y hy
      have := decorate_mem_idx p (i + 1) cs y hy
      show i < y.1.2
      omega

lemma filterMap_congr_mem {α β : Type} {f g : α → Option β} :
    ∀ l : List α, (∀ x ∈ l, f x = g x) → l.filterMap f = l.filterMap g := by
  intro l
  induction l with
  | nil => intro _; rfl
  | cons a l ih =>
      intro h
      rw [List.filterMap_cons, List.filterMap_cons, h a (List.mem_cons_self a l),
        ih (fun x hx => h x (List.mem_cons_of_mem a hx))]

/-- C8: `orderCols` permutes the kept vintage columns; in the output the
parseable leading date tokens appear in ascending (chronological) order;
the columns with unparseable names keep their source order (they form the
same filtered subsequence as in the input, placed after the dated ones by
the NaT-last argsort); and when no name is parseable the whole file order
is kept.  The concrete example exercises out-of-order dates, an arbitrary
label and a `_1` duplicate suffix. -/
theorem c8_column_ordering :
    ∀ (p : String → Option Nat) (cols : List Col),
      List.Perm (orderCols p cols) cols
      ∧ List.Pairwise (· ≤ ·)
          ((orderCols p cols).filterMap (fun c => p (leadingDatePart c.name)))
      ∧ (orderCols p cols).filter (fun c => (p (leadingDatePart c.name)).isNone)
          = cols.filter (fun c => (p (leadingDatePart c.name)).isNone)
      ∧ ((cols.map (fun c => p (leadingDatePart c.name))).all Option.isNone →
          orderCols p cols = cols)
      ∧ (orderCols genericParse exCols).map Col.name =
          ["1999-01-01", "2010-01-01_1", "2020-05-01", "foo"] := by
  intro p cols
  by_cases hall : (cols.map (fun c => p (leadingDatePart c.name))).all Option.isNone
  · have ho : orderCols p cols = cols := by
      unfold orderCols
      rw [if_pos hall]
    have hnil : cols.filterMap (fun c => p (leadingDatePart c.name)) = [] := by
      rw [List.filterMap_eq_nil_iff]
      intro c hc
      exact Option.isNone_iff_eq_none.mp
        (List.all_eq_true.mp hall _ (List.mem_map_of_mem _ hc))
    refine ⟨?_, ?_, by rw [ho], fun _ => ho, by decide⟩
    · rw [ho]
    · rw [ho, hnil]
      exact List.Pairwise.nil
  · have ho : orderCols p cols =
        (List.insertionSort decLe (decorate p 0 cols)).map (fun x => x.2) := by
      unfold orderCols
      rw [if_neg hall]
    have hperm : List.Perm (List.insertionSort decLe (decorate p 0 cols))
        (decorate p 0 cols) :=
      List.perm_insertionSort decLe (decorate p 0 cols)
    have hsorted : List.Pairwise decLe (List.insertionSort decLe (decorate p 0 cols)) :=
      List.sorted_insertionSort decLe (decorate p 0 cols)
    have hkey : ∀ x ∈ List.insertionSort decLe (decorate p 0 cols),
        x.1.1 = p (leadingDatePart x.2.name) :=
      fun x hx => decorate_mem_key p 0 cols x (hperm.mem_iff.mp hx)
    refine ⟨?_, ?_, ?_, fun h => absurd h hall, by decide⟩
    · rw [ho]
      have h1 := hperm.map (fun x : (Option Nat × Nat) × Col => x.2)
      rwa [decorate_map_snd] at h1
    · rw [ho, List.filterMap_map]
      rw [filterMap_congr_mem (List.insertionSort decLe (decorate p 0 cols))
        (fun x hx => by
          have := hkey x hx
          simpa [Function.comp] using this.symm)]
      refine hsorted.filterMap (fun x => x.1.1) ?_
      intro a a' hle b hb b' hb'
      have hba : a.1.1 = some b := Option.mem_def.mp hb
      have hba' : a'.1.1 = some b' := Option.mem_def.mp hb'
      rcases a with ⟨⟨ka, i⟩, ca⟩
      rcases a' with ⟨⟨ka', j⟩, ca'⟩
      simp only at hba hba'
      subst hba hba'
      unfold decLe keyLe at hle
      simp only [Bool.or_eq_true, Bool.and_eq_true, decide_eq_true_eq] at hle
      omega
    · rw [ho, List.filter_map]
      have hcols : cols.filter (fun c => (p (leadingDatePart c.name)).isNone) =
          ((decorate p 0 cols).filter
            ((fun c => (p (leadingDatePart c.name)).isNone) ∘ (fun x => x.2))).map
            (fun x => x.2) := by
        rw [← List.filter_map, decorate_map_snd]
      rw [hcols]
      have hsrtF : (List.insertionSort decLe (decorate p 0 cols)).filter
          ((fun c => (p (leadingDatePart c.name)).isNone) ∘ (fun x => x.2)) =
          (List.insertionSort decLe (decorate p 0 cols)).filter
            (fun x => x.1.1.isNone) := by
        refine List.filter_congr ?_
        intro x hx
        simp only [Function.comp_apply]
        rw [hkey x hx]
      have hdecF : (decorate p 0 cols).filter
          ((fun c => (p (leadingDatePart c.name)).isNone) ∘ (fun x => x.2)) =
          (decorate p 0 cols).filter (fun x => x.1.1.isNone) := by
        refine List.filter_congr ?_
        intro x hx
        simp only [Function.comp_apply]
        rw [decorate_mem_key p 0 cols x hx]
      rw [hsrtF, hdecF]
      have hcore : (List.insertionSort decLe (decorate p 0 cols)).filter
          (fun x => x.1.1.isNone) =
          (decorate p 0 cols).filter (fun x => x.1.1.isNone) := by
        have hpermF := hperm.filter (fun x : (Option Nat × Nat) × Col => x.1.1.isNone)
        have hdec_idx : List.Pairwise idxLt (decorate p 0 cols) :=
          decorate_idx_pairwise p 0 cols
        have hdecF_idx : List.Pairwise idxLt
            ((decorate p 0 cols).filter (fun x => x.1.1.isNone)) :=
          hdec_idx.filter _
        have hne : List.Pairwise (fun a b : (Option Nat × Nat) × Col => a.1.2 ≠ b.1.2)
            (List.insertionSort decLe (decorate p 0 cols)) := by
          refine (List.Perm.pairwise_iff ?_ hperm.symm).mp ?_
          · intro a b hab
            exact fun h => hab h.symm
          · exact hdec_idx.imp (fun h => Nat.ne_of_lt h)
        have hneF := hne.filter (fun x : (Option Nat × Nat) × Col => x.1.1.isNone)
        have hleF : List.Pairwise (fun a b : (Option Nat × Nat) × Col => a.1.2 ≤ b.1.2)
            ((List.insertionSort decLe (decorate p 0 cols)).filter
              (fun x => x.1.1.isNone)) := by
          refine (hsorted.filter _).imp_of_mem ?_
          intro a b ha hb hle
          have hka : a.1.1 = none :=
            Option.isNone_iff_eq_none.mp ((List.mem_filter.mp ha).2)
          have hkb : b.1.1 = none :=
            Option.isNone_iff_eq_none.mp ((List.mem_filter.mp hb).2)
          rcases a with ⟨⟨ka, i⟩, ca⟩
          rcases b with ⟨⟨kb, j⟩, cb⟩
          simp only at hka hkb
          subst hka hkb
          unfold decLe keyLe at hle
          simpa using hle
        have hsrtF_idx : List.Pairwise idxLt
            ((List.insertionSort decLe (decorate p 0 cols)).filter
              (fun x => x.1.1.isNone)) := by
          refine (hleF.and hneF).imp ?_
          intro a b hab
          unfold idxLt
          omega
        exact List.eq_of_perm_of_sorted hpermF hsrtF_idx hdecF_idx
      rw [hcore]

/-- C8 witness: the all-unparseable fallback keeps file order. -/
theorem c8_witness :
    orderCols genericParse [⟨"foo", [PF.fin 1]⟩, ⟨"bar", [PF.fin 2]⟩] =
      [⟨"foo", [PF.fin 1]⟩, ⟨"bar", [PF.fin 2]⟩] :=
  (c8_column_ordering genericParse
    [⟨"foo", [PF.fin 1]⟩, ⟨"bar", [PF.fin 2]⟩]).2.2.2.1 (by decide)

lemma digitChr_ne_underscore (d : Nat) : digitChr d ≠ '_' := by
  unfold digitChr
  split <;> decide

lemma chrVal_digitChr (d : Nat) (hd : d < 10) : chrVal (digitChr d) = d := by
  interval_cases d <;> rfl

/-- With enough fuel, the decimal digits of `n` evaluate back to `n`. -/
lemma digitsVal_natDigitsRevAux : ∀ f n : Nat, n ≤ f →
    digitsVal (natDigitsRevAux f n) = n := by
  intro f
  induction f with
  | zero =>
      intro n hn
      interval_cases n
      rfl
  | succ f ih =>
      intro n hn
      cases n with
      | zero => rfl
      | succ m =>
          have hdiv : (m + 1) / 10 < m + 1 := Nat.div_lt_self (Nat.succ_pos m) (by decide)
          simp only [natDigitsRevAux, digitsVal]
          rw [chrVal_digitChr _ (Nat.mod_lt _ (by decide)), ih ((m + 1) / 10) (by omega)]
          omega

lemma natDigitsRevAux_no_underscore : ∀ f n : Nat, ∀ c ∈ natDigitsRevAux f n,
    c ≠ '_' := by
  intro f
  induction f with
  | zero =>
      intro n c hc
      cases n with
      | zero => exact absurd hc (List.not_mem_nil c)
      | succ m => exact absurd hc (List.not_mem_nil c)
  | succ f ih =>
      intro n c hc
      cases n with
      | zero => exact absurd hc (List.not_mem_nil c)
      | succ m =>
          simp only [natDigitsRevAux] at hc
          rcases List.mem_cons.mp hc with h | h
          · rw [h]
            exact digitChr_ne_underscore _
          · exact ih _ c h

lemma natRepr_no_underscore (n : Nat) : '_' ∉ (natRepr n).data := by
  unfold natRepr
  by_cases hn : n = 0
  · rw [if_pos hn]
    decide
  · rw [if_neg hn]
    intro hmem
    have h1 : '_' ∈ (natDigitsRev n).reverse := hmem
    rw [List.mem_reverse] at h1
    exact natDigitsRevAux_no_underscore n n '_' h1 rfl

lemma natDigitsRev_inj {m n : Nat} (h : natDigitsRev m = natDigitsRev n) : m = n := by
  have hm := digitsVal_natDigitsRevAux m m (le_refl m)
  have hn := digitsVal_natDigitsRevAux n n (le_refl n)
  unfold natDigitsRev at h
  rw [← hm, ← hn, h]

lemma natRepr_inj {m n : Nat} (h : natRepr m = natRepr n) : m = n := by
  unfold natRepr at h
  by_cases hm : m = 0 <;> by_cases hn : n = 0
  · omega
  · exfalso
    rw [if_pos hm, if_neg hn] at h
    have hd : ("0" : String).data = (natDigitsRev n).reverse :=
      congrArg String.data h
    have h0 : natDigitsRev n = ['0'] := by
      have h2 := congrArg List.reverse hd
      simpa using h2.symm
    have hv := digitsVal_natDigitsRevAux n n (le_refl n)
    rw [show natDigitsRevAux n n = natDigitsRev n from rfl, h0] at hv
    have : digitsVal ['0'] = 0 := rfl
    omega
  · exfalso
    rw [if_neg hm, if_pos hn] at h
    have hd : (natDigitsRev m).reverse = ("0" : String).data :=
      congrArg String.data h
    have h0 : natDigitsRev m = ['0'] := by
      have h2 := congrArg List.reverse hd
      simpa using h2
    have hv := digitsVal_natDigitsRevAux m m (le_refl m)
    rw [show natDigitsRevAux m m = natDigitsRev m from rfl, h0] at hv
    have : digitsVal ['0'] = 0 := rfl
    omega
  · rw [if_neg hm, if_neg hn] at h
    have hd : (natDigitsRev m).reverse = (natDigitsRev n).reverse :=
      congrArg String.data h
    have h2 := congrArg List.reverse hd
    simp only [List.reverse_reverse] at h2
    exact natDigitsRev_inj h2

/-- Cancel an underscore-separated suffix: if neither tail contains an
underscore, the parts of `u ++ '_' :: v = u' ++ '_' :: v'` agree. -/
lemma append_underscore_cancel : ∀ u u' v v' : List Char,
    '_' ∉ v → '_' ∉ v' → u ++ '_' :: v = u' ++ '_' :: v' → u = u' ∧ v = v' := by
  intro u
  induction u with
  | nil =>
      intro u' v v' hv hv' h
      cases u' with
      | nil =>
          simp only [List.nil_append] at h
          exact ⟨rfl, List.tail_eq_of_cons_eq h⟩
      | cons c u1 =>
          simp only [List.nil_append, List.cons_append] at h
          have h1 : '_' = c := List.head_eq_of_cons_eq h
          have h2 : v = u1 ++ '_' :: v' := List.tail_eq_of_cons_eq h
          exfalso
          apply hv
          rw [h2]
          exact List.mem_append_right u1 (List.mem_cons_self '_' v')
  | cons c u1 ih =>
      intro u' v v' hv hv' h
      cases u' with
      | nil =>
          simp only [List.nil_append, List.cons_append] at h
          have h2 : u1 ++ '_' :: v = v' := List.tail_eq_of_cons_eq h
          exfalso
          apply hv'
          rw [← h2]
          exact List.mem_append_right u1 (List.mem_cons_self '_' v)
      | cons c' u1' =>
          simp only [List.cons_append] at h
          have h1 : c = c' := List.head_eq_of_cons_eq h
          have h2 := List.tail_eq_of_cons_eq h
          rcases ih u1' v v' hv hv' h2 with ⟨hu, hvv⟩
          exact ⟨by rw [h1, hu], hvv⟩

/-- Data of the rendered duplicate name. -/
lemma render_data (b : String) (k : Nat) :
    (b ++ "_" ++ natRepr k).data = b.data ++ '_' :: (natRepr k).data := by
  rw [String.data_append, String.data_append, List.append_assoc]
  rfl

/-- Two rendered duplicate names are equal only if base and counter agree. -/
lemma render_cancel {b b' : String} {k k' : Nat}
    (h : b ++ "_" ++ natRepr k = b' ++ "_" ++ natRepr k') : b = b' ∧ k = k' := by
  have hd := congrArg String.data h
  rw [render_data, render_data] at hd
  rcases append_underscore_cancel b.data b'.data (natRepr k).data (natRepr k').data
    (natRepr_no_underscore k) (natRepr_no_underscore k') hd with ⟨h1, h2⟩
  exact ⟨String.ext h1, natRepr_inj (String.ext h2)⟩

/-- A string without underscores is never a rendered duplicate name. -/
lemma ne_render_of_no_underscore (a b : String) (k : Nat) (ha : '_' ∉ a.data) :
    a ≠ b ++ "_" ++ natRepr k := by
  intro h
  apply ha
  rw [h, render_data]
  exact List.mem_append_right b.data (List.mem_cons_self '_' (natRepr k).data)

/-- Invariant of the `make_unique` loop.  `names` is the full input (used
only through the no-preexisting-suffix hypothesis `H`); `rest` the
remaining input; `seen` the counters so far; `S` the names already
emitted.  If unvisited originals are not in `S` and no rendered name that
could still be produced is in `S`, the remaining output is duplicate-free
and disjoint from `S`. -/
lemma muGo_spec (names : List String)
    (H : ∀ a ∈ names, ∀ b ∈ names, ∀ k : Nat, a ≠ b ++ "_" ++ natRepr (k + 1)) :
    ∀ (rest : List String) (seen : String → Option Nat) (S : List String),
      (∀ n ∈ rest, n ∈ names) →
      (∀ n ∈ rest, seen n = none → n ∉ S) →
      (∀ b ∈ names, ∀ k : Nat, 1 ≤ k →
        (seen b = none ∨ ∃ c, seen b = some c ∧ c < k) →
        (b ++ "_" ++ natRepr k) ∉ S) →
      (muGo seen rest).Nodup ∧ ∀ x ∈ muGo seen rest, x ∉ S := by
  intro rest
  induction rest with
  | nil =>
      intro seen S _ _ _
      exact ⟨List.nodup_nil, fun x hx => absurd hx (List.not_mem_nil x)⟩
  | cons n rest ih =>
      intro seen S hsub horig hrend
      have hn_names : n ∈ names := hsub n (List.mem_cons_self n rest)
      cases hseen : seen n with
      | none =>
          have hstep : muGo seen (n :: rest) =
              n :: muGo (fun k => if k = n then some 0 else seen k) rest := by
            simp only [muGo, hseen]
          have horig' : ∀ m ∈ rest,
              (fun k => if k = n then some 0 else seen k) m = none → m ∉ n :: S := by
            intro m hm hmnone
            simp only at hmnone
            have hmn : m ≠ n := by
              intro he
              rw [if_pos he] at hmnone
              exact Option.noConfusion hmnone
            rw [if_neg hmn] at hmnone
            intro hmem
            rcases List.mem_cons.mp hmem with h | h
            · exact hmn h
            · exact horig m (List.mem_cons_of_mem n hm) hmnone h
          have hrend' : ∀ b ∈ names, ∀ k : Nat, 1 ≤ k →
              ((fun k => if k = n then some 0 else seen k) b = none ∨
                ∃ c, (fun k => if k = n then some 0 else seen k) b = some c ∧ c < k) →
              (b ++ "_" ++ natRepr k) ∉ n :: S := by
            intro b hb k hk hcond hmem
            simp only at hcond
            rcases List.mem_cons.mp hmem with h | h
            · have hk' : k = (k - 1) + 1 := by omega
              exact H n hn_names b hb (k - 1) (by rw [← hk']; exact h.symm)
            · by_cases hbn : b = n
              · exact hrend b hb k hk (Or.inl (hbn ▸ hseen)) h
              · rw [if_neg hbn] at hcond
                exact hrend b hb k hk hcond h
          obtain ⟨hnd, hdisj⟩ := ih (fun k => if k = n then some 0 else seen k) (n :: S)
            (fun m hm => hsub m (List.mem_cons_of_mem n hm)) horig' hrend'
          rw [hstep]
          refine ⟨List.nodup_cons.mpr ⟨?_, hnd⟩, ?_⟩
          · intro hmem
            exact hdisj n hmem (List.mem_cons_self n S)
          · intro x hx
            rcases List.mem_cons.mp hx with h | h
            · rw [h]
              exact horig n (List.mem_cons_self n rest) hseen
            · exact fun hxS => hdisj x h (List.mem_cons_of_mem n hxS)
      | some c =>
          have hstep : muGo seen (n :: rest) =
              (n ++ "_" ++ natRepr (c + 1)) ::
                muGo (fun k => if k = n then some (c + 1) else seen k) rest := by
            simp only [muGo, hseen]
          have hrS : (n ++ "_" ++ natRepr (c + 1)) ∉ S :=
            hrend n hn_names (c + 1) (by omega) (Or.inr ⟨c, hseen, by omega⟩)
          have horig' : ∀ m ∈ rest,
              (fun k => if k = n then some (c + 1) else seen k) m = none →
              m ∉ (n ++ "_" ++ natRepr (c + 1)) :: S := by
            intro m hm hmnone
            simp only at hmnone
            have hmn : m ≠ n := by
              intro he
              rw [if_pos he] at hmnone
              exact Option.noConfusion hmnone
            rw [if_neg hmn] at hmnone
            intro hmem
            rcases List.mem_cons.mp hmem with h | h
            · exact H m (hsub m (List.mem_cons_of_mem n hm)) n hn_names c h
            · exact horig m (List.mem_cons_of_mem n hm) hmnone h
          have hrend' : ∀ b ∈ names, ∀ k : Nat, 1 ≤ k →
              ((fun k => if k = n then some (c + 1) else seen k) b = none ∨
                ∃ c', (fun k => if k = n then some (c + 1) else seen k) b = some c' ∧
                  c' < k) →
              (b ++ "_" ++ natRepr k) ∉ (n ++ "_" ++ natRepr (c + 1)) :: S := by
            intro b hb k hk hcond hmem
            simp only at hcond
            rcases List.mem_cons.mp hmem with h | h
            · rcases render_cancel h with ⟨hbn, hkc⟩
              subst hbn
              rw [if_pos rfl] at hcond
              rcases hcond with hnone | ⟨c', hc', hlt⟩
              · exact Option.noConfusion hnone
              · have : c' = c + 1 := (Option.some.inj hc').symm
                omega
            · by_cases hbn : b = n
              · subst hbn
                rw [if_pos rfl] at hcond
                rcases hcond with hnone | ⟨c', hc', hlt⟩
                · exact Option.noConfusion hnone
                · have hcc : c' = c + 1 := (Option.some.inj hc').symm
                  exact hrend b hb k hk (Or.inr ⟨c, hseen, by omega⟩) h
              · rw [if_neg hbn] at hcond
                exact hrend b hb k hk hcond h
          obtain ⟨hnd, hdisj⟩ := ih (fun k => if k = n then some (c + 1) else seen k)
            ((n ++ "_" ++ natRepr (c + 1)) :: S)
            (fun m hm => hsub m (List.mem_cons_of_mem n hm)) horig' hrend'
          rw [hstep]
          refine ⟨List.nodup_cons.mpr ⟨?_, hnd⟩, ?_⟩
          · intro hmem
            exact hdisj _ hmem (List.mem_cons_self _ S)
          · intro x hx
            rcases List.mem_cons.mp hx with h | h
            · rw [h]
              exact hrS
            · exact fun hxS => hdisj x h (List.mem_cons_of_mem _ hxS)

/-- C7, counterexample: uniqueness fails when an input label already looks
like a suffixed duplicate — `["A", "A", "A_1"]` produces `"A_1"` twice. -/
theorem c7_counterexample :
    make_unique ["A", "A", "A_1"] = ["A", "A_1", "A_1"]
    ∧ ¬ (make_unique ["A", "A", "A_1"]).Nodup :=
  ⟨by decide, by decide⟩

/-- C7 (amended): `make_unique` appends `_<n>` with a 1-based per-label
occurrence counter, and its output is pairwise distinct provided no input
label is itself another input label with an `_<n>` suffix (`n ≥ 1`)
appended; the spec's example `["Date","A","A","A"]` yields
`["Date","A","A_1","A_2"]`. -/
theorem c7_make_unique :
    (∀ names : List String,
      (∀ a ∈ names, ∀ b ∈ names, ∀ k : Nat, a ≠ b ++ "_" ++ natRepr (k + 1)) →
      (make_unique names).Nodup)
    ∧ make_unique ["Date", "A", "A", "A"] = ["Date", "A", "A_1", "A_2"] := by
  constructor
  · intro names H
    exact (muGo_spec names H names (fun _ => none) []
      (fun _ hn => hn)
      (fun n _ _ => List.not_mem_nil n)
      (fun b _ k _ _ => List.not_mem_nil (b ++ "_" ++ natRepr k))).1
  · decide

/-- C7 witness: the uniqueness theorem applied to the spec's example input,
whose labels contain no underscore. -/
theorem c7_witness : (make_unique ["Date", "A", "A", "A"]).Nodup := by
  apply c7_make_unique.1
  intro a ha b hb k
  refine ne_render_of_no_underscore a b (k + 1) ?_
  fin_cases ha <;> decide
